import Mathlib

/-!
Verification of the binomial-heap library (`src/lib.rs`, `src/node.rs`).

The Rust representation `Option<Box<Node<T>>>` — where a `Node` holds
`item`, `order`, `next` (the following sibling tree) and `child` (the first
child tree) — is embedded as the inductive `Forest`: `Forest.nil` is `None`
and `Forest.node x k n c` is `Some(Node { item: x, order: k, next: n,
child: c })`.  All functions below are direct transcriptions of the Rust
functions; in-place mutation becomes returning the updated forest, and the
content swaps performed with `mem::swap` become exchanging which
constructor arguments continue in which role.
-/

namespace BinHeap

/-- Rust `Option<Box<Node<T>>>` from `node.rs`: a (possibly empty) sibling list of
binomial trees.  `node item order next child` mirrors the four fields of
`Node<T>`. -/
inductive Forest (α : Type) : Type where
  | nil : Forest α
  | node (item : α) (order : Nat) (next : Forest α) (child : Forest α) : Forest α
deriving Repr, DecidableEq

variable {α : Type}

/-- All items stored in a forest (the node's item, then its child subtree's
items, then the following siblings' items). -/
def items : Forest α → List α
  | .nil => []
  | .node x _ n c => x :: (items c ++ items n)

/-- Length of the sibling chain starting here (number of root nodes). -/
def nlen : Forest α → Nat
  | .nil => 0
  | .node _ _ n _ => nlen n + 1

/-- The roots of a forest as a list of `(item, order, child)` triples, in
sibling order. -/
def rootList : Forest α → List (α × Nat × Forest α)
  | .nil => []
  | .node x k n c => (x, k, c) :: rootList n

/-- The orders along the root list, in sibling order. -/
def ordersOf (f : Forest α) : List Nat :=
  (rootList f).map fun t => t.2.1

/-- The multiset of items held by one root node given as an
`(item, order, child)` triple. -/
def nodeItems (t : α × Nat × Forest α) : Multiset α :=
  t.1 ::ₘ ↑(items t.2.2)

/-- Rust `node.rs::merge`: merges the sibling list `b` into the sibling list `a`.
The Rust loop walks `a`, swapping the full node contents with `b`'s head
whenever `a`'s head has the larger order (`a_.order > b.order`), then
descends into `a_.next`; appending `b` when `a_.next` is `None`. -/
def merge : Forest α → Forest α → Forest α
  | .nil, b => b
  | .node x k n c, .nil => .node x k n c
  | .node x k n c, .node y j m d =>
    if k > j then
      .node y j (merge m (.node x k n c)) d
    else
      .node x k (merge n (.node y j m d)) c
termination_by a b => nlen a + nlen b
decreasing_by
  all_goals simp [nlen]
  all_goals omega

/-- Rust `node.rs::link`: makes `b` a child of `a`.  `b.next` was cleared by the
caller before the call (`debug_assert!(b.next.is_none())`), so `b`'s `next`
argument is ignored; the old child list of `a` becomes `b`'s sibling chain. -/
def link : Forest α → Forest α → Forest α
  | .node x k n c, .node y j _ d => .node x (k + 1) n (.node y j c d)
  | a, _ => a

/-- Does the head of this sibling list (if any) have order `j`?  This is
`b.next.as_ref().map_or(false, |c| c.order == b.order)` from `coalesce`. -/
def headOrderIs : Forest α → Nat → Bool
  | .nil, _ => false
  | .node _ i _ _, j => i == j

/-- Rust `node.rs::coalesce`: single left-to-right pass linking adjacent
equal-order trees.  Case A advances; Case B links `b` under `a` and then
advances; Case C swaps the contents of `a` and `b` and links the displaced
node under the new head, staying in place. -/
def coalesce [LinearOrder α] : Forest α → Forest α
  | .nil => .nil
  | .node x k .nil c => .node x k .nil c
  | .node x k (.node y j m d) c =>
    if k ≠ j ∨ headOrderIs m j then
      .node x k (coalesce (.node y j m d)) c
    else if y ≤ x then
      .node x (k + 1) (coalesce m) (.node y j c d)
    else
      coalesce (.node y (j + 1) m (.node x k d c))
termination_by f => nlen f
decreasing_by
  all_goals simp [nlen]
  all_goals omega

/-- Rust `node.rs::append`: `merge` then `coalesce`, a no-op when `other` is
`None`.  (The Rust `root` argument is a `&mut Box<Node<T>>`, i.e. nonempty.) -/
def appendF [LinearOrder α] (root : Forest α) (other : Forest α) : Forest α :=
  match other with
  | .nil => root
  | .node y j m d => coalesce (merge root (.node y j m d))

/-- Rust `node.rs::push`: wrap the item as an order-0 singleton; install it if the
forest is empty, otherwise `append` it. -/
def pushF [LinearOrder α] (root : Forest α) (x : α) : Forest α :=
  match root with
  | .nil => .node x 0 .nil .nil
  | .node a k n c => appendF (.node a k n c) (.node x 0 .nil .nil)

/-- The scanning loop of `node.rs::remove_max`: `(mx, mk, mc)` are the
fields of the currently detached maximum node (its `next` is cleared); when
a later root's item exceeds it, the two nodes' contents are exchanged so the
old maximum re-enters the list at that position.  Returns the detached
maximum's fields and the remaining sibling list. -/
def removeMaxGo [LinearOrder α] (mx : α) (mk : Nat) (mc : Forest α) :
    Forest α → (α × Nat × Forest α) × Forest α
  | .nil => ((mx, mk, mc), .nil)
  | .node y j m d =>
    if y > mx then
      let p := removeMaxGo y j d m
      (p.1, .node mx mk p.2 mc)
    else
      let p := removeMaxGo mx mk mc m
      (p.1, .node y j p.2 d)

/-- Rust `node.rs::remove_max`: detaches and returns the maximum root (as its
`(item, order, child)` fields — its `next` is cleared) together with the
remaining root list. -/
def removeMax [LinearOrder α] : Forest α → Option ((α × Nat × Forest α) × Forest α)
  | .nil => none
  | .node x k n c => some (removeMaxGo x k c n)

/-- Rust `node.rs::pop` (forest part): remove the maximum root, then append its
child list back into the remaining forest (installing it directly when the
remaining forest is empty).  Returns the removed item and the new forest. -/
def popF [LinearOrder α] (root : Forest α) : Option (α × Forest α) :=
  (removeMax root).map fun p =>
    (p.1.1,
      match p.2 with
      | .nil => p.1.2.2
      | .node y j m d => appendF (.node y j m d) p.1.2.2)

/-- Rust `BinomialHeap<T>` from `lib.rs`: an optional forest root and a length
counter. -/
structure Heap (α : Type) : Type where
  root : Forest α
  len : Nat
deriving Repr, DecidableEq

/-- Rust `BinomialHeap::new`. -/
def Heap.new : Heap α := ⟨.nil, 0⟩

/-- Rust `BinomialHeap::is_empty`: checks the root option only. -/
def Heap.isEmpty (h : Heap α) : Bool :=
  match h.root with
  | .nil => true
  | .node _ _ _ _ => false

/-- Rust `BinomialHeap::push`: delegate to `node::push`, increment `len`. -/
def Heap.push [LinearOrder α] (h : Heap α) (x : α) : Heap α :=
  ⟨pushF h.root x, h.len + 1⟩

/-- Rust `BinomialHeap::pop`: delegate to `node::pop`, which decrements `len`
exactly when an item is removed.  Returns the popped item (if any) and the
updated heap. -/
def Heap.pop [LinearOrder α] (h : Heap α) : Option α × Heap α :=
  match popF h.root with
  | none => (none, h)
  | some (x, r) => (some x, ⟨r, h.len - 1⟩)

/-- Rust `BinomialHeap::append`: if `self` is empty the two heaps are swapped
wholesale (`mem::swap(self, other)`); otherwise `other`'s forest is taken
and appended and its length is drained into `self`.  Returns the pair
`(self, other)` after the call. -/
def Heap.append [LinearOrder α] (a b : Heap α) : Heap α × Heap α :=
  match a.root with
  | .nil => (b, a)
  | .node x k n c => (⟨appendF (.node x k n c) b.root, a.len + b.len⟩, ⟨.nil, 0⟩)

/-- Rust `BinomialHeap::push_pop`: push, then pop.  The Rust code unwraps the
popped option with `expect("heap was empty")`; the option is kept here so
that its being `some` can be stated and proved. -/
def Heap.pushPop [LinearOrder α] (h : Heap α) (x : α) : Option α × Heap α :=
  (h.push x).pop

/-- Rust `BinomialHeap::replace`: pop, then push; returns the popped item. -/
def Heap.replace [LinearOrder α] (h : Heap α) (x : α) : Option α × Heap α :=
  let p := h.pop
  (p.1, p.2.push x)

/-- Fold pushing every element of a list (`Extend`/`FromIterator`). -/
def Heap.pushAll [LinearOrder α] (h : Heap α) (xs : List α) : Heap α :=
  xs.foldl Heap.push h

/-- Repeatedly pop until no value is produced, fuelled (the fuel is an
upper bound on the number of stored items). -/
def Heap.popAllAux [LinearOrder α] : Nat → Heap α → List α
  | 0, _ => []
  | n + 1, h =>
    match h.pop with
    | (some x, h2) => x :: Heap.popAllAux n h2
    | (none, _) => []

/-- The sequence produced by repeatedly calling `pop` until it returns no
value. -/
def Heap.popAll [LinearOrder α] (h : Heap α) : List α :=
  Heap.popAllAux (items h.root).length h

/-- State of `node.rs::Iter` / `node.rs::IntoIter`: a stack of pending
(nonempty) node pointers and a remaining-length counter.  The two Rust
iterators differ only in yielding `&T` versus `T`; item-wise they are the
same function, modelled once. -/
structure IterSt (α : Type) : Type where
  nodes : List (Forest α)
  len : Nat

/-- Rust `node.rs::iter`: seed the stack with the root node, if present. -/
def iterOf (root : Forest α) (len : Nat) : IterSt α :=
  ⟨match root with
   | .nil => []
   | .node x k n c => [.node x k n c], len⟩

/-- Rust `node.rs::into_iter`: seed the stack with the root node, if present. -/
def intoIterOf (root : Forest α) (len : Nat) : IterSt α :=
  ⟨match root with
   | .nil => []
   | .node x k n c => [.node x k n c], len⟩

/-- Rust `Iter::next` / `IntoIter::next`: pop one pending node, push its `next`
sibling and then its first `child` (so the child is popped first), yield its
item and decrement the length counter. -/
def iterStep : IterSt α → Option (α × IterSt α)
  | ⟨[], _⟩ => none
  | ⟨f :: stack, n⟩ =>
    match f with
    | .nil => none
    | .node x _ nx c =>
      let s1 := match nx with
                | .nil => stack
                | .node x2 k2 n2 c2 => Forest.node x2 k2 n2 c2 :: stack
      let s2 := match c with
                | .nil => s1
                | .node x3 k3 n3 c3 => Forest.node x3 k3 n3 c3 :: s1
      some (x, ⟨s2, n - 1⟩)

/-- Total number of items pending on an iterator stack. -/
def stackCount (l : List (Forest α)) : Nat :=
  (l.map fun f => (items f).length).sum

/-- Run an iterator to exhaustion, fuelled. -/
def iterAllAux : Nat → IterSt α → List α
  | 0, _ => []
  | n + 1, s =>
    match iterStep s with
    | none => []
    | some (x, s2) => x :: iterAllAux n s2

/-- The full sequence an iterator yields. -/
def iterAll (s : IterSt α) : List α :=
  iterAllAux (stackCount s.nodes) s

/-- Rust `BinomialHeap::drain`: replace the heap with a fresh empty one and turn
the old contents into a consuming iterator.  Returns the iterator and the
heap as it is left behind. -/
def Heap.drain (h : Heap α) : IterSt α × Heap α :=
  (intoIterOf h.root h.len, Heap.new)

/-- All items pending on an iterator stack, in the order the iterator will
yield them. -/
def stackItems : List (Forest α) → List α
  | [] => []
  | f :: st => items f ++ stackItems st

/-- Max-heap property of a forest: every node's item dominates every item of
its child subtree, recursively, along the whole sibling chain. -/
inductive HF [LinearOrder α] : Forest α → Prop where
  | nil : HF .nil
  | node (x : α) (k : Nat) (n c : Forest α) :
      HF n → HF c → (∀ y ∈ items c, y ≤ x) → HF (.node x k n c)

/-- Well-sized forest: every tree holds exactly `2 ^ order` items (so every
node of order `k` has a child subtree holding `2 ^ k - 1` items). -/
inductive WS : Forest α → Prop where
  | nil : WS .nil
  | node (x : α) (k : Nat) (n c : Forest α) :
      WS n → WS c → (items c).length + 1 = 2 ^ k → WS (.node x k n c)

/-- The bookkeeping invariant of the facade: the stored length equals the
number of items actually in the forest, and every tree is well-sized. -/
def HeapInv (h : Heap α) : Prop :=
  h.len = (items h.root).length ∧ WS h.root

/-- Heap states reachable from `BinomialHeap::new` by the public
operations. -/
inductive Reachable [LinearOrder α] : Heap α → Prop where
  | new : Reachable Heap.new
  | push (h : Heap α) (x : α) : Reachable h → Reachable (h.push x)
  | pop (h : Heap α) : Reachable h → Reachable h.pop.2
  | appendLeft (a b : Heap α) : Reachable a → Reachable b → Reachable (a.append b).1
  | appendRight (a b : Heap α) : Reachable a → Reachable b → Reachable (a.append b).2
  | pushPop (h : Heap α) (x : α) : Reachable h → Reachable (h.pushPop x).2
  | replaceOp (h : Heap α) (x : α) : Reachable h → Reachable (h.replace x).2
  | clear (h : Heap α) : Reachable h → Reachable Heap.new
  | drain (h : Heap α) : Reachable h → Reachable h.drain.2

end BinHeap

namespace BinHeap

variable {α : Type}

open scoped List

theorem items_merge (a b : Forest α) :
    (items (merge a b) : Multiset α) = ↑(items a) + ↑(items b) := by
  induction a, b using merge.induct with
  | case1 b => simp [merge, items]
  | case2 x k n c => simp [merge, items]
  | case3 x k n c y j m d hkj ih =>
    rw [merge, if_pos hkj]
    simp only [items, ← Multiset.cons_coe, ← Multiset.coe_add, ← Multiset.singleton_add, ih]
    abel
  | case4 x k n c y j m d hkj ih =>
    rw [merge, if_neg hkj]
    simp only [items, ← Multiset.cons_coe, ← Multiset.coe_add, ← Multiset.singleton_add, ih]
    abel

theorem items_coalesce [LinearOrder α] (f : Forest α) :
    (items (coalesce f) : Multiset α) = ↑(items f) := by
  induction f using coalesce.induct with
  | case1 => simp [coalesce]
  | case2 x k c => simp [coalesce]
  | case3 x k y j m d c h ih =>
    rw [coalesce, if_pos h]
    simp only [items, ← Multiset.cons_coe, ← Multiset.coe_add, ← Multiset.singleton_add, ih]
  | case4 x k y j m d c h hyx ih =>
    rw [coalesce, if_neg h, if_pos hyx]
    simp only [items, ← Multiset.cons_coe, ← Multiset.coe_add, ← Multiset.singleton_add, ih]
    abel
  | case5 x k y j m d c h hyx ih =>
    rw [coalesce, if_neg h, if_neg hyx]
    simp only [items, ← Multiset.cons_coe, ← Multiset.coe_add, ← Multiset.singleton_add] at ih ⊢
    rw [ih]
    abel

theorem merge_ne_nil (a b : Forest α) (ha : a ≠ .nil) : merge a b ≠ .nil := by
  cases a with
  | nil => exact absurd rfl ha
  | node x k n c =>
    cases b with
    | nil => simp [merge]
    | node y j m d => rw [merge]; split <;> simp

theorem coalesce_ne_nil [LinearOrder α] (f : Forest α) (hf : f ≠ .nil) :
    coalesce f ≠ .nil := by
  induction f using coalesce.induct with
  | case1 => exact absurd rfl hf
  | case2 x k c => rw [coalesce]; simp
  | case3 x k y j m d c h ih => rw [coalesce, if_pos h]; simp
  | case4 x k y j m d c h hyx ih => rw [coalesce, if_neg h, if_pos hyx]; simp
  | case5 x k y j m d c h hyx ih =>
    rw [coalesce, if_neg h, if_neg hyx]
    exact ih (by simp)

theorem hf_merge [LinearOrder α] {a b : Forest α} (ha : HF a) (hb : HF b) :
    HF (merge a b) := by
  induction a, b using merge.induct with
  | case1 b => simpa [merge] using hb
  | case2 x k n c => simpa [merge] using ha
  | case3 x k n c y j m d hkj ih =>
    rw [merge, if_pos hkj]
    cases hb with
    | node _ _ _ _ hm hd hdom => exact HF.node _ _ _ _ (ih hm ha) hd hdom
  | case4 x k n c y j m d hkj ih =>
    rw [merge, if_neg hkj]
    cases ha with
    | node _ _ _ _ hn hc hdom => exact HF.node _ _ _ _ (ih hn hb) hc hdom

theorem hf_coalesce [LinearOrder α] {f : Forest α} (hf : HF f) : HF (coalesce f) := by
  induction f using coalesce.induct with
  | case1 => simpa [coalesce] using hf
  | case2 x k c => simpa [coalesce] using hf
  | case3 x k y j m d c h ih =>
    rw [coalesce, if_pos h]
    cases hf with
    | node _ _ _ _ hn hc hdom => exact HF.node _ _ _ _ (ih hn) hc hdom
  | case4 x k y j m d c h hyx ih =>
    rw [coalesce, if_neg h, if_pos hyx]
    cases hf with
    | node _ _ _ _ hn hc hdom =>
      cases hn with
      | node _ _ _ _ hm hd hdomd =>
        refine HF.node _ _ _ _ (ih hm) (HF.node _ _ _ _ hc hd hdomd) ?_
        intro z hz
        simp only [items, List.mem_cons, List.mem_append] at hz
        rcases hz with rfl | hz | hz
        · exact hyx
        · exact le_trans (hdomd z hz) hyx
        · exact hdom z hz
  | case5 x k y j m d c h hyx ih =>
    rw [coalesce, if_neg h, if_neg hyx]
    cases hf with
    | node _ _ _ _ hn hc hdom =>
      cases hn with
      | node _ _ _ _ hm hd hdomd =>
        refine ih (HF.node _ _ _ _ hm (HF.node _ _ _ _ hd hc hdom) ?_)
        intro z hz
        simp only [items, List.mem_cons, List.mem_append] at hz
        rcases hz with rfl | hz | hz
        · exact le_of_not_le hyx
        · exact le_trans (hdom z hz) (le_of_not_le hyx)
        · exact hdomd z hz



theorem ws_merge {a b : Forest α} (ha : WS a) (hb : WS b) : WS (merge a b) := by
  induction a, b using merge.induct with
  | case1 b => simpa [merge] using hb
  | case2 x k n c => simpa [merge] using ha
  | case3 x k n c y j m d hkj ih =>
    rw [merge, if_pos hkj]
    cases hb with
    | node _ _ _ _ hm hd hs => exact WS.node _ _ _ _ (ih hm ha) hd hs
  | case4 x k n c y j m d hkj ih =>
    rw [merge, if_neg hkj]
    cases ha with
    | node _ _ _ _ hn hc hs => exact WS.node _ _ _ _ (ih hn hb) hc hs

theorem ws_coalesce [LinearOrder α] {f : Forest α} (hf : WS f) : WS (coalesce f) := by
  induction f using coalesce.induct with
  | case1 => simpa [coalesce] using hf
  | case2 x k c => simpa [coalesce] using hf
  | case3 x k y j m d c h ih =>
    rw [coalesce, if_pos h]
    cases hf with
    | node _ _ _ _ hn hc hs => exact WS.node _ _ _ _ (ih hn) hc hs
  | case4 x k y j m d c h hyx ih =>
    rw [coalesce, if_neg h, if_pos hyx]
    have hkj : k = j := by
      by_contra hne
      exact h (Or.inl hne)
    cases hf with
    | node _ _ _ _ hn hc hs =>
      cases hn with
      | node _ _ _ _ hm hd hsd =>
        refine WS.node _ _ _ _ (ih hm) (WS.node _ _ _ _ hc hd hsd) ?_
        simp only [items, List.length_cons, List.length_append]
        subst hkj
        rw [pow_succ]
        omega
  | case5 x k y j m d c h hyx ih =>
    rw [coalesce, if_neg h, if_neg hyx]
    have hkj : k = j := by
      by_contra hne
      exact h (Or.inl hne)
    cases hf with
    | node _ _ _ _ hn hc hs =>
      cases hn with
      | node _ _ _ _ hm hd hsd =>
        refine ih (WS.node _ _ _ _ hm (WS.node _ _ _ _ hd hc hs) ?_)
        simp only [items, List.length_cons, List.length_append]
        subst hkj
        rw [pow_succ]
        omega

theorem removeMaxGo_perm [LinearOrder α] (mx : α) (mk : Nat) (mc f : Forest α) :
    ((removeMaxGo mx mk mc f).1 :: rootList (removeMaxGo mx mk mc f).2) ~
      ((mx, mk, mc) :: rootList f) := by
  induction f generalizing mx mk mc with
  | nil => simp [removeMaxGo, rootList]
  | node y j m d ihm ihd =>
    rw [removeMaxGo]
    split
    · simp only [rootList]
      calc (removeMaxGo y j d m).1 :: (mx, mk, mc) :: rootList (removeMaxGo y j d m).2
          ~ (mx, mk, mc) :: (removeMaxGo y j d m).1 :: rootList (removeMaxGo y j d m).2 :=
            List.Perm.swap _ _ _
        _ ~ (mx, mk, mc) :: (y, j, d) :: rootList m := (ihm y j d).cons _
    · simp only [rootList]
      calc (removeMaxGo mx mk mc m).1 :: (y, j, d) :: rootList (removeMaxGo mx mk mc m).2
          ~ (y, j, d) :: (removeMaxGo mx mk mc m).1 :: rootList (removeMaxGo mx mk mc m).2 :=
            List.Perm.swap _ _ _
        _ ~ (y, j, d) :: (mx, mk, mc) :: rootList m := (ihm mx mk mc).cons _
        _ ~ (mx, mk, mc) :: (y, j, d) :: rootList m := List.Perm.swap _ _ _

theorem removeMaxGo_max [LinearOrder α] (mx : α) (mk : Nat) (mc f : Forest α) :
    mx ≤ (removeMaxGo mx mk mc f).1.1 ∧
      ∀ t ∈ rootList f, t.1 ≤ (removeMaxGo mx mk mc f).1.1 := by
  induction f generalizing mx mk mc with
  | nil => simp [removeMaxGo, rootList]
  | node y j m d ihm ihd =>
    rw [removeMaxGo]
    split
    · rename_i hgt
      obtain ⟨h1, h2⟩ := ihm y j d
      refine ⟨le_trans (le_of_lt hgt) h1, ?_⟩
      intro t ht
      simp only [rootList, List.mem_cons] at ht
      rcases ht with rfl | ht
      · exact h1
      · exact h2 t ht
    · rename_i hle
      obtain ⟨h1, h2⟩ := ihm mx mk mc
      refine ⟨h1, ?_⟩
      intro t ht
      simp only [rootList, List.mem_cons] at ht
      rcases ht with rfl | ht
      · exact le_trans (le_of_not_lt hle) h1
      · exact h2 t ht

theorem items_flat (f : Forest α) :
    (↑(items f) : Multiset α) = ((rootList f).map nodeItems).sum := by
  induction f with
  | nil => simp [items, rootList]
  | node x k n c ihn ihc =>
    simp only [items, rootList, List.map_cons, List.sum_cons, nodeItems,
      ← Multiset.cons_coe, ← Multiset.coe_add, ihn]
    rw [Multiset.cons_add]

theorem hf_items_le_roots [LinearOrder α] {f : Forest α} (hf : HF f) :
    ∀ z ∈ items f, ∃ t ∈ rootList f, z ≤ t.1 := by
  induction hf with
  | nil => simp [items]
  | node x k n c hn hc hdom ihn ihc =>
    intro z hz
    simp only [items, List.mem_cons, List.mem_append] at hz
    rcases hz with rfl | hz | hz
    · exact ⟨(z, k, c), by simp [rootList], le_refl z⟩
    · exact ⟨(x, k, c), by simp [rootList], hdom z hz⟩
    · obtain ⟨t, ht, hle⟩ := ihn z hz
      exact ⟨t, by simp [rootList, ht], hle⟩

theorem removeMaxGo_hf [LinearOrder α] {mx : α} {mk : Nat} {mc f : Forest α}
    (hc : HF mc) (hdom : ∀ y ∈ items mc, y ≤ mx) (hf : HF f) :
    HF (removeMaxGo mx mk mc f).2 ∧ HF (removeMaxGo mx mk mc f).1.2.2 := by
  induction f generalizing mx mk mc with
  | nil => exact ⟨HF.nil, hc⟩
  | node y j m d ihm ihd =>
    cases hf with
    | node _ _ _ _ hm hd hdomd =>
      rw [removeMaxGo]
      split
      · obtain ⟨h1, h2⟩ := ihm hd hdomd hm
        exact ⟨HF.node _ _ _ _ h1 hc hdom, h2⟩
      · obtain ⟨h1, h2⟩ := ihm hc hdom hm
        exact ⟨HF.node _ _ _ _ h1 hd hdomd, h2⟩

theorem removeMaxGo_ws [LinearOrder α] {mx : α} {mk : Nat} {mc f : Forest α}
    (hc : WS mc) (hs : (items mc).length + 1 = 2 ^ mk) (hf : WS f) :
    WS (removeMaxGo mx mk mc f).2 ∧ WS (removeMaxGo mx mk mc f).1.2.2 ∧
      (items (removeMaxGo mx mk mc f).1.2.2).length + 1 =
        2 ^ (removeMaxGo mx mk mc f).1.2.1 := by
  induction f generalizing mx mk mc with
  | nil => exact ⟨WS.nil, hc, hs⟩
  | node y j m d ihm ihd =>
    cases hf with
    | node _ _ _ _ hm hd hsd =>
      rw [removeMaxGo]
      split
      · obtain ⟨h1, h2, h3⟩ := ihm hd hsd hm
        exact ⟨WS.node _ _ _ _ h1 hc hs, h2, h3⟩
      · obtain ⟨h1, h2, h3⟩ := ihm hc hs hm
        exact ⟨WS.node _ _ _ _ h1 hd hsd, h2, h3⟩

theorem items_appendF [LinearOrder α] (a b : Forest α) :
    (↑(items (appendF a b)) : Multiset α) = ↑(items a) + ↑(items b) := by
  cases b with
  | nil => simp [appendF, items]
  | node y j m d => rw [appendF, items_coalesce, items_merge]

theorem hf_appendF [LinearOrder α] {a b : Forest α} (ha : HF a) (hb : HF b) :
    HF (appendF a b) := by
  cases b with
  | nil => exact ha
  | node y j m d => exact hf_coalesce (hf_merge ha hb)

theorem ws_appendF [LinearOrder α] {a b : Forest α} (ha : WS a) (hb : WS b) :
    WS (appendF a b) := by
  cases b with
  | nil => exact ha
  | node y j m d => exact ws_coalesce (ws_merge ha hb)

theorem popF_none_iff [LinearOrder α] (root : Forest α) :
    popF root = none ↔ root = .nil := by
  cases root <;> simp [popF, removeMax]

theorem popF_spec [LinearOrder α] {root : Forest α} {x : α} {r : Forest α}
    (hf : HF root) (h : popF root = some (x, r)) :
    (↑(items root) : Multiset α) = x ::ₘ ↑(items r) ∧ HF r ∧
      ∀ z ∈ items root, z ≤ x := by
  cases root with
  | nil => simp [popF, removeMax] at h
  | node x0 k0 n0 c0 =>
    rw [popF, removeMax] at h
    simp only [Option.map_some'] at h
    injection h with h
    cases hf with
    | node _ _ _ _ hn hc hdom =>
      obtain ⟨hfr, hfc⟩ := removeMaxGo_hf hc hdom hn
      have hperm := removeMaxGo_perm x0 k0 c0 n0
      have hmax := removeMaxGo_max x0 k0 c0 n0
      set p := removeMaxGo x0 k0 c0 n0 with hp
      have hitems : (↑(items (Forest.node x0 k0 n0 c0)) : Multiset α) =
          p.1.1 ::ₘ (↑(items p.1.2.2) + ↑(items p.2)) := by
        rw [items_flat]
        simp only [rootList]
        rw [← (hperm.map nodeItems).sum_eq]
        simp only [List.map_cons, List.sum_cons, nodeItems, items_flat]
        rw [Multiset.cons_add]
      have hglobal : ∀ z ∈ items (Forest.node x0 k0 n0 c0), z ≤ p.1.1 := by
        intro z hz
        obtain ⟨t, ht, hle⟩ := hf_items_le_roots (HF.node _ _ _ _ hn hc hdom) z hz
        simp only [rootList, List.mem_cons] at ht
        rcases ht with rfl | ht
        · exact le_trans hle hmax.1
        · exact le_trans hle (hmax.2 t ht)
      cases hp2 : p.2 with
      | nil =>
        rw [hp2] at h
        simp only [] at h
        obtain ⟨hx, hr⟩ := Prod.mk.injEq .. ▸ h
        subst hx
        subst hr
        rw [hp2] at hitems
        refine ⟨?_, hfc, hglobal⟩
        simpa [items] using hitems
      | node y j m d =>
        rw [hp2] at h
        simp only [] at h
        obtain ⟨hx, hr⟩ := Prod.mk.injEq .. ▸ h
        subst hx
        subst hr
        rw [hp2] at hitems hfr
        refine ⟨?_, hf_appendF hfr hfc, hglobal⟩
        rw [items_appendF, hitems, add_comm]

theorem popF_ws [LinearOrder α] {root : Forest α} {x : α} {r : Forest α}
    (hw : WS root) (h : popF root = some (x, r)) : WS r := by
  cases root with
  | nil => simp [popF, removeMax] at h
  | node x0 k0 n0 c0 =>
    rw [popF, removeMax] at h
    simp only [Option.map_some'] at h
    injection h with h
    cases hw with
    | node _ _ _ _ hn hc hs =>
      obtain ⟨h1, h2, h3⟩ := @removeMaxGo_ws α _ x0 k0 c0 n0 hc hs hn
      set p := removeMaxGo x0 k0 c0 n0 with hp
      cases hp2 : p.2 with
      | nil =>
        rw [hp2] at h
        simp only [] at h
        obtain ⟨hx, hr⟩ := Prod.mk.injEq .. ▸ h
        subst hr
        exact h2
      | node y j m d =>
        rw [hp2] at h
        simp only [] at h
        obtain ⟨hx, hr⟩ := Prod.mk.injEq .. ▸ h
        subst hr
        rw [hp2] at h1
        exact ws_appendF h1 h2

theorem pushF_items [LinearOrder α] (root : Forest α) (x : α) :
    (↑(items (pushF root x)) : Multiset α) = x ::ₘ ↑(items root) := by
  cases root with
  | nil => simp [pushF, items]
  | node a k n c =>
    rw [pushF, items_appendF]
    simp only [items, List.append_nil, ← Multiset.cons_coe, ← Multiset.coe_add]
    rw [add_comm]
    rfl

theorem pushF_hf [LinearOrder α] {root : Forest α} (hf : HF root) (x : α) :
    HF (pushF root x) := by
  cases root with
  | nil => exact HF.node _ _ _ _ HF.nil HF.nil (by simp [items])
  | node a k n c => exact hf_appendF hf (HF.node _ _ _ _ HF.nil HF.nil (by simp [items]))

theorem pushF_ws [LinearOrder α] {root : Forest α} (hw : WS root) (x : α) :
    WS (pushF root x) := by
  cases root with
  | nil => exact WS.node _ _ _ _ WS.nil WS.nil (by simp [items])
  | node a k n c => exact ws_appendF hw (WS.node _ _ _ _ WS.nil WS.nil (by simp [items]))

theorem pop_none_iff_empty [LinearOrder α] (h : Heap α) :
    (h.pop).1 = none ↔ h.isEmpty = true := by
  rw [Heap.pop]
  cases hp : popF h.root with
  | none =>
    rw [popF_none_iff] at hp
    simp [Heap.isEmpty, hp]
  | some p =>
    have : h.root ≠ .nil := by
      intro hroot
      rw [(popF_none_iff h.root).2 hroot] at hp
      exact Option.noConfusion hp
    cases hroot : h.root with
    | nil => exact absurd hroot this
    | node a k n c => simp [Heap.isEmpty, hroot]

theorem popAllAux_spec [LinearOrder α] (n : Nat) (h : Heap α) (hf : HF h.root)
    (hn : (items h.root).length ≤ n) :
    (↑(Heap.popAllAux n h) : Multiset α) = ↑(items h.root) ∧
      List.Sorted (fun a b => a ≥ b) (Heap.popAllAux n h) := by
  induction n generalizing h with
  | zero =>
    rw [Nat.le_zero, List.length_eq_zero] at hn
    simp [Heap.popAllAux, hn]
  | succ n ih =>
    rw [Heap.popAllAux, Heap.pop]
    cases hp : popF h.root with
    | none =>
      rw [popF_none_iff] at hp
      simp [hp, items]
    | some p =>
      obtain ⟨x, r⟩ := p
      obtain ⟨hitems, hfr, hmax⟩ := popF_spec hf hp
      have hlen : (items r).length ≤ n := by
        have := congrArg Multiset.card hitems
        simp only [Multiset.coe_card, Multiset.card_cons] at this
        omega
      obtain ⟨ih1, ih2⟩ := ih ⟨r, h.len - 1⟩ hfr hlen
      simp only []
      constructor
      · rw [← Multiset.cons_coe, hitems]
        rw [Multiset.cons_inj_right]
        exact ih1
      · rw [List.sorted_cons]
        refine ⟨?_, ih2⟩
        intro b hb
        have : b ∈ (↑(Heap.popAllAux n ⟨r, h.len - 1⟩) : Multiset α) := by
          rwa [Multiset.mem_coe]
        rw [ih1] at this
        have : b ∈ items h.root := by
          rw [← Multiset.mem_coe, hitems]
          exact Multiset.mem_cons_of_mem this
        exact hmax b this

theorem pushAll_spec [LinearOrder α] (xs : List α) (h : Heap α) (hf : HF h.root) :
    (↑(items (Heap.pushAll h xs).root) : Multiset α) = ↑(items h.root) + ↑xs ∧
      HF (Heap.pushAll h xs).root := by
  induction xs generalizing h with
  | nil => exact ⟨by simp [Heap.pushAll], hf⟩
  | cons x xs ih =>
    simp only [Heap.pushAll, List.foldl_cons] at ih ⊢
    obtain ⟨ih1, ih2⟩ := ih (h.push x) (pushF_hf hf x)
    refine ⟨?_, ih2⟩
    rw [ih1]
    show _ + _ = _
    rw [show ((Heap.push h x).root) = pushF h.root x from rfl, pushF_items]
    rw [← Multiset.cons_coe, ← Multiset.singleton_add, ← Multiset.singleton_add]
    abel

/-- C2: pushing any finite multiset of items into an empty heap and then
repeatedly popping yields exactly that multiset, sorted in descending
order, and `pop` yields no value exactly when the heap is empty. -/
theorem claim_C2 [LinearOrder α] (xs : List α) :
    (↑(Heap.popAll (Heap.pushAll Heap.new xs)) : Multiset α) = ↑xs ∧
      List.Sorted (fun a b => a ≥ b) (Heap.popAll (Heap.pushAll Heap.new xs)) ∧
      ∀ h : Heap α, (h.pop).1 = none ↔ h.isEmpty = true := by
  obtain ⟨h1, h2⟩ := pushAll_spec xs Heap.new HF.nil
  obtain ⟨h3, h4⟩ := popAllAux_spec (items (Heap.pushAll Heap.new xs).root).length
    (Heap.pushAll Heap.new xs) h2 (le_refl _)
  refine ⟨?_, h4, fun h => pop_none_iff_empty h⟩
  rw [Heap.popAll, h3, h1]
  simp [Heap.new, items]

theorem pushF_ne_nil [LinearOrder α] (root : Forest α) (x : α) :
    pushF root x ≠ .nil := by
  cases root with
  | nil => simp [pushF]
  | node a k n c =>
    rw [pushF, appendF]
    exact coalesce_ne_nil _ (merge_ne_nil _ _ (by simp))

/-- C5: the pop inside `push_pop` always yields a value. -/
theorem claim_C5 [LinearOrder α] (h : Heap α) (x : α) :
    ((h.pushPop x).1).isSome = true := by
  rw [Heap.pushPop, Heap.pop]
  cases hp : popF (h.push x).root with
  | none =>
    rw [popF_none_iff] at hp
    exact absurd hp (pushF_ne_nil h.root x)
  | some p => rfl

/-- C10: `push_pop` on the empty heap returns the item and leaves the heap
empty; `replace` on the empty heap returns no value and leaves exactly the
pushed item, with length 1. -/
theorem claim_C10 [LinearOrder α] (x : α) :
    Heap.pushPop Heap.new x = (some x, Heap.new) ∧
      (Heap.replace Heap.new x).1 = none ∧
      items (Heap.replace Heap.new x).2.root = [x] ∧
      (Heap.replace Heap.new x).2.len = 1 :=
  ⟨rfl, rfl, rfl, rfl⟩

/-- C8: immediately after `drain` the original heap is empty with length 0
(the heap value returned by `drain` is independent of the iterator, so this
holds no matter how far the iterator is consumed). -/
theorem claim_C8 (h : Heap α) :
    (h.drain).2.isEmpty = true ∧ (h.drain).2.len = 0 :=
  ⟨rfl, rfl⟩

/-- C1 (falsified): after `push 1; push 2; push 3; push 4; pop; push 5` the
root list has orders `[0, 1, 0]` — order 0 appears twice, so the
strict-increase invariant does not hold after every public mutation. -/
theorem claim_C1_eval :
    ordersOf ((((((Heap.new.push 1).push 2).push 3).push 4 : Heap Nat).pop.2).push 5).root
        = [0, 1, 0] ∧
      ¬ List.Pairwise (fun a b => a ≠ b)
        (ordersOf ((((((Heap.new.push 1).push 2).push 3).push 4 : Heap Nat).pop.2).push 5).root) := by
  have h : ordersOf ((((((Heap.new.push 1).push 2).push 3).push 4 : Heap Nat).pop.2).push 5).root
      = [0, 1, 0] := by
    simp [Heap.new, Heap.push, Heap.pop, pushF, appendF, popF, removeMax, removeMaxGo,
      merge, coalesce, headOrderIs, link, ordersOf, rootList]
  exact ⟨h, by rw [h]; decide⟩

/-- C9 (falsified): after `push 1; push 2; push 3; push 4; pop` the root
list has orders `[1, 0]`, which is not non-decreasing. -/
theorem claim_C9_eval :
    ordersOf ((((Heap.new.push 1).push 2).push 3).push 4 : Heap Nat).pop.2.root = [1, 0] ∧
      ¬ List.Pairwise (fun a b => a ≤ b)
        (ordersOf ((((Heap.new.push 1).push 2).push 3).push 4 : Heap Nat).pop.2.root) := by
  have h : ordersOf ((((Heap.new.push 1).push 2).push 3).push 4 : Heap Nat).pop.2.root = [1, 0] := by
    simp [Heap.new, Heap.push, Heap.pop, pushF, appendF, popF, removeMax, removeMaxGo,
      merge, coalesce, headOrderIs, link, ordersOf, rootList]
  exact ⟨h, by rw [h]; decide⟩

theorem items_eq_nil_iff (f : Forest α) : items f = [] ↔ f = .nil := by
  cases f <;> simp [items]

theorem popF_items [LinearOrder α] {root : Forest α} {x : α} {r : Forest α}
    (h : popF root = some (x, r)) :
    (↑(items root) : Multiset α) = x ::ₘ ↑(items r) := by
  cases root with
  | nil => simp [popF, removeMax] at h
  | node x0 k0 n0 c0 =>
    rw [popF, removeMax] at h
    simp only [Option.map_some'] at h
    injection h with h
    have hperm := removeMaxGo_perm x0 k0 c0 n0
    set p := removeMaxGo x0 k0 c0 n0 with hp
    have hitems : (↑(items (Forest.node x0 k0 n0 c0)) : Multiset α) =
        p.1.1 ::ₘ (↑(items p.1.2.2) + ↑(items p.2)) := by
      rw [items_flat]
      simp only [rootList]
      rw [← (hperm.map nodeItems).sum_eq]
      simp only [List.map_cons, List.sum_cons, nodeItems, items_flat]
      rw [Multiset.cons_add]
    cases hp2 : p.2 with
    | nil =>
      rw [hp2] at h
      simp only [] at h
      obtain ⟨hx, hr⟩ := Prod.mk.injEq .. ▸ h
      subst hx
      subst hr
      rw [hp2] at hitems
      simpa [items] using hitems
    | node y j m d =>
      rw [hp2] at h
      simp only [] at h
      obtain ⟨hx, hr⟩ := Prod.mk.injEq .. ▸ h
      subst hx
      subst hr
      rw [hp2] at hitems
      rw [items_appendF, hitems, add_comm]

theorem inv_push [LinearOrder α] {h : Heap α} (hi : HeapInv h) (x : α) :
    HeapInv (h.push x) := by
  obtain ⟨hl, hw⟩ := hi
  refine ⟨?_, pushF_ws hw x⟩
  have := congrArg Multiset.card (pushF_items h.root x)
  simp only [Multiset.coe_card, Multiset.card_cons] at this
  show h.len + 1 = (items (pushF h.root x)).length
  omega

theorem inv_pop [LinearOrder α] {h : Heap α} (hi : HeapInv h) : HeapInv h.pop.2 := by
  obtain ⟨hl, hw⟩ := hi
  rw [Heap.pop]
  cases hp : popF h.root with
  | none => exact ⟨hl, hw⟩
  | some p =>
    obtain ⟨x, r⟩ := p
    have hcard := congrArg Multiset.card (popF_items hp)
    simp only [Multiset.coe_card, Multiset.card_cons] at hcard
    exact ⟨by simp only []; omega, popF_ws hw hp⟩

theorem inv_new [LinearOrder α] : HeapInv (Heap.new : Heap α) :=
  ⟨by simp [Heap.new, items], WS.nil⟩

theorem inv_append [LinearOrder α] {a b : Heap α} (hia : HeapInv a) (hib : HeapInv b) :
    HeapInv (a.append b).1 ∧ HeapInv (a.append b).2 := by
  obtain ⟨ar, al⟩ := a
  obtain ⟨hla, hwa⟩ := hia
  obtain ⟨hlb, hwb⟩ := hib
  cases ar with
  | nil => exact ⟨⟨hlb, hwb⟩, hla, hwa⟩
  | node x k n c =>
    have happ : (Heap.append ⟨.node x k n c, al⟩ b) =
        (⟨appendF (.node x k n c) b.root, al + b.len⟩, ⟨.nil, 0⟩) := rfl
    rw [happ]
    refine ⟨⟨?_, ws_appendF hwa hwb⟩, ⟨by simp [items], WS.nil⟩⟩
    have := congrArg Multiset.card (items_appendF (Forest.node x k n c) b.root)
    simp only [Multiset.coe_card, Multiset.card_add] at this
    show al + b.len = (items (appendF (Forest.node x k n c) b.root)).length
    simp only [] at hla
    omega

theorem reachable_inv [LinearOrder α] {h : Heap α} (hr : Reachable h) : HeapInv h := by
  induction hr with
  | new => exact inv_new
  | push h x hh ih => exact inv_push ih x
  | pop h hh ih => exact inv_pop ih
  | appendLeft a b hha hhb iha ihb => exact (inv_append iha ihb).1
  | appendRight a b hha hhb iha ihb => exact (inv_append iha ihb).2
  | pushPop h x hh ih => exact inv_pop (inv_push ih x)
  | replaceOp h x hh ih => exact inv_push (inv_pop ih) x
  | clear h hh ih => exact inv_new
  | drain h hh ih => exact inv_new

theorem ws_sum {f : Forest α} (hw : WS f) :
    (items f).length = ((rootList f).map fun t => 2 ^ t.2.1).sum := by
  induction hw with
  | nil => simp [items, rootList]
  | node x k n c hn hc hs ihn ihc =>
    simp only [items, rootList, List.length_cons, List.length_append,
      List.map_cons, List.sum_cons]
    omega

/-- C6: for every reachable heap, the root is absent exactly when the count
is zero, and the count equals both the sum of `2 ^ order` over the trees of
the forest and the number of stored items. -/
theorem claim_C6 [LinearOrder α] (h : Heap α) (hr : Reachable h) :
    (h.root = .nil ↔ h.len = 0) ∧
      h.len = ((rootList h.root).map fun t => 2 ^ t.2.1).sum ∧
      h.len = (items h.root).length := by
  obtain ⟨hl, hw⟩ := reachable_inv hr
  refine ⟨?_, by rw [hl, ws_sum hw], hl⟩
  constructor
  · intro hroot
    rw [hl, hroot]
    simp [items]
  · intro hlen
    rw [hlen] at hl
    have : items h.root = [] := List.length_eq_zero.1 hl.symm
    exact (items_eq_nil_iff h.root).1 this

/-- Witness for C6 at the concrete reachable heap `new.push 3`. -/
theorem claim_C6_witness :
    ((((Heap.new : Heap Nat).push 3).root = .nil ↔ ((Heap.new : Heap Nat).push 3).len = 0) ∧
      ((Heap.new : Heap Nat).push 3).len =
        ((rootList ((Heap.new : Heap Nat).push 3).root).map fun t => 2 ^ t.2.1).sum ∧
      ((Heap.new : Heap Nat).push 3).len = (items ((Heap.new : Heap Nat).push 3).root).length) :=
  claim_C6 _ (Reachable.push _ 3 Reachable.new)

/-- C3: `append` moves all of `other`'s items into `self`, leaves `other`
empty, and adds the lengths — in both the swap branch (empty `self`) and
the merge branch.  The hypothesis is the facade's length bookkeeping
invariant for `self`, which every reachable heap satisfies. -/
theorem claim_C3 [LinearOrder α] (a b : Heap α)
    (ha : a.len = (items a.root).length) :
    (↑(items (a.append b).1.root) : Multiset α) = ↑(items a.root) + ↑(items b.root) ∧
      (a.append b).2.isEmpty = true ∧ (a.append b).2.len = 0 ∧
      (a.append b).1.len = a.len + b.len := by
  obtain ⟨ar, al⟩ := a
  cases ar with
  | nil =>
    simp only [] at ha
    have hd : (Heap.append ⟨.nil, al⟩ b) = (b, ⟨.nil, al⟩) := rfl
    rw [hd]
    have hal : al = 0 := by simpa [items] using ha
    refine ⟨by simp [items], by simp [Heap.isEmpty], hal, by simp [hal]⟩
  | node x k n c =>
    have hd : (Heap.append ⟨.node x k n c, al⟩ b) =
        (⟨appendF (.node x k n c) b.root, al + b.len⟩, ⟨.nil, 0⟩) := rfl
    rw [hd]
    exact ⟨items_appendF _ _, by simp [Heap.isEmpty], rfl, rfl⟩

/-- Witness for C3 with an empty `self` and a singleton `other`. -/
theorem claim_C3_witness :
    ((⟨.nil, 0⟩ : Heap Nat).len = (items (⟨.nil, 0⟩ : Heap Nat).root).length) ∧
      ((↑(items ((⟨.nil, 0⟩ : Heap Nat).append ⟨.node 3 0 .nil .nil, 1⟩).1.root) : Multiset Nat) =
          ↑(items (⟨.nil, 0⟩ : Heap Nat).root) + ↑(items (⟨.node 3 0 .nil .nil, 1⟩ : Heap Nat).root) ∧
        ((⟨.nil, 0⟩ : Heap Nat).append ⟨.node 3 0 .nil .nil, 1⟩).2.isEmpty = true ∧
        ((⟨.nil, 0⟩ : Heap Nat).append ⟨.node 3 0 .nil .nil, 1⟩).2.len = 0 ∧
        ((⟨.nil, 0⟩ : Heap Nat).append ⟨.node 3 0 .nil .nil, 1⟩).1.len =
          (⟨.nil, 0⟩ : Heap Nat).len + (⟨.node 3 0 .nil .nil, 1⟩ : Heap Nat).len) :=
  ⟨rfl, claim_C3 _ _ rfl⟩

/-- C4: on a nonempty root list whose orders strictly increase, `remove_max`
returns the fields of a root holding the maximum item (its child list
intact; in this embedding the detached node carries no `next`), the
remaining list is the other roots, and no two of them share an order. -/
theorem claim_C4 [LinearOrder α] (f : Forest α) (hne : f ≠ .nil)
    (hinc : List.Pairwise (fun a b => a < b) (ordersOf f)) :
    ∃ m r, removeMax f = some (m, r) ∧ m ∈ rootList f ∧
      (∀ t ∈ rootList f, t.1 ≤ m.1) ∧
      List.Perm (m :: rootList r) (rootList f) ∧
      List.Pairwise (fun s t : α × Nat × Forest α => s.2.1 ≠ t.2.1) (rootList r) := by
  cases f with
  | nil => exact absurd rfl hne
  | node x k n c =>
    refine ⟨(removeMaxGo x k c n).1, (removeMaxGo x k c n).2, rfl, ?_, ?_, ?_, ?_⟩
    · exact (removeMaxGo_perm x k c n).subset (List.mem_cons_self _ _)
    · intro t ht
      obtain ⟨h1, h2⟩ := removeMaxGo_max x k c n
      simp only [rootList, List.mem_cons] at ht
      rcases ht with rfl | ht
      · exact h1
      · exact h2 t ht
    · exact removeMaxGo_perm x k c n
    · have hpf : List.Pairwise (fun s t : α × Nat × Forest α => s.2.1 ≠ t.2.1)
          (rootList (Forest.node x k n c)) := by
        rw [ordersOf, List.pairwise_map] at hinc
        exact hinc.imp fun hlt => ne_of_lt hlt
      have := ((removeMaxGo_perm x k c n).pairwise_iff fun hst => Ne.symm hst).2 hpf
      exact List.Pairwise.of_cons this

/-- Witness for C4 on the strictly increasing root list `[(1,0), (5,1)]`. -/
theorem claim_C4_witness :
    ((.node 1 0 (.node 5 1 .nil .nil) .nil : Forest Nat) ≠ .nil) ∧
      List.Pairwise (fun a b => a < b)
        (ordersOf (.node 1 0 (.node 5 1 .nil .nil) .nil : Forest Nat)) ∧
      (∃ m r, removeMax (.node 1 0 (.node 5 1 .nil .nil) .nil : Forest Nat) = some (m, r) ∧
        m ∈ rootList (.node 1 0 (.node 5 1 .nil .nil) .nil : Forest Nat) ∧
        (∀ t ∈ rootList (.node 1 0 (.node 5 1 .nil .nil) .nil : Forest Nat), t.1 ≤ m.1) ∧
        List.Perm (m :: rootList r) (rootList (.node 1 0 (.node 5 1 .nil .nil) .nil : Forest Nat)) ∧
        List.Pairwise (fun s t : Nat × Nat × Forest Nat => s.2.1 ≠ t.2.1) (rootList r)) :=
  ⟨by simp, by decide, claim_C4 _ (by simp) (by decide)⟩

theorem iterAllAux_spec (n : Nat) (s : IterSt α) (hnn : ∀ f ∈ s.nodes, f ≠ .nil)
    (hn : stackCount s.nodes ≤ n) : iterAllAux n s = stackItems s.nodes := by
  induction n generalizing s with
  | zero =>
    obtain ⟨nodes, len⟩ := s
    cases nodes with
    | nil => simp [iterAllAux, stackItems]
    | cons f st =>
      exfalso
      have hf := hnn f (List.mem_cons_self f st)
      cases f with
      | nil => exact hf rfl
      | node x k nx c =>
        simp [stackCount, items] at hn
  | succ n ih =>
    obtain ⟨nodes, len⟩ := s
    cases nodes with
    | nil => simp [iterAllAux, iterStep, stackItems]
    | cons f st =>
      have hf := hnn f (List.mem_cons_self f st)
      cases f with
      | nil => exact absurd rfl hf
      | node x k nx c =>
        have hst : ∀ g ∈ st, g ≠ Forest.nil :=
          fun g hg => hnn g (List.mem_cons_of_mem _ hg)
        have hcount : (items c).length + (items nx).length + stackCount st + 1 ≤ n + 1 := by
          simp only [stackCount, List.map_cons, List.sum_cons, items, List.length_cons,
            List.length_append] at hn ⊢
          omega
        rw [iterAllAux]
        cases nx with
        | nil =>
          cases c with
          | nil =>
            simp only [iterStep]
            rw [ih ⟨st, len - 1⟩ hst (by
              show stackCount st ≤ n
              simp only [items, List.length] at hcount
              omega)]
            simp [stackItems, items]
          | node x3 k3 n3 c3 =>
            simp only [iterStep]
            rw [ih ⟨Forest.node x3 k3 n3 c3 :: st, len - 1⟩ ?_ ?_]
            · simp [stackItems, items]
            · intro g hg
              rcases List.mem_cons.1 hg with rfl | hg
              · simp
              · exact hst g hg
            · show stackCount (Forest.node x3 k3 n3 c3 :: st) ≤ n
              simp only [stackCount, List.map_cons, List.sum_cons, items, List.length_cons,
                List.length_append, List.length] at hcount ⊢
              omega
        | node x2 k2 n2 c2 =>
          cases c with
          | nil =>
            simp only [iterStep]
            rw [ih ⟨Forest.node x2 k2 n2 c2 :: st, len - 1⟩ ?_ ?_]
            · simp [stackItems, items]
            · intro g hg
              rcases List.mem_cons.1 hg with rfl | hg
              · simp
              · exact hst g hg
            · show stackCount (Forest.node x2 k2 n2 c2 :: st) ≤ n
              simp only [stackCount, List.map_cons, List.sum_cons, items, List.length_cons,
                List.length_append, List.length] at hcount ⊢
              omega
          | node x3 k3 n3 c3 =>
            simp only [iterStep]
            rw [ih ⟨Forest.node x3 k3 n3 c3 :: Forest.node x2 k2 n2 c2 :: st, len - 1⟩ ?_ ?_]
            · simp [stackItems, items]
            · intro g hg
              rcases List.mem_cons.1 hg with rfl | hg
              · simp
              rcases List.mem_cons.1 hg with rfl | hg
              · simp
              · exact hst g hg
            · show stackCount (Forest.node x3 k3 n3 c3 :: Forest.node x2 k2 n2 c2 :: st) ≤ n
              simp only [stackCount, List.map_cons, List.sum_cons, items, List.length_cons,
                List.length_append, List.length] at hcount ⊢
              omega

/-- C7: both the borrowing iterator (`iter`) and the consuming iterator
(`into_iter`, used by `drain`) yield exactly the stored items (each exactly
once), and the number of items yielded equals the heap's `len` at creation
time.  The hypothesis is the facade's length bookkeeping invariant, which
every reachable heap satisfies. -/
theorem claim_C7 (h : Heap α) (hl : h.len = (items h.root).length) :
    iterAll (iterOf h.root h.len) = items h.root ∧
      (iterAll (iterOf h.root h.len)).length = h.len ∧
      iterAll (intoIterOf h.root h.len) = items h.root ∧
      (iterAll (intoIterOf h.root h.len)).length = h.len := by
  have main : ∀ (root : Forest α) (L : Nat),
      iterAll (⟨(match root with
        | Forest.nil => []
        | Forest.node x k n c => [Forest.node x k n c]), L⟩ : IterSt α) = items root := by
    intro root L
    cases root with
    | nil => rfl
    | node x k n c =>
      have hspec := iterAllAux_spec (stackCount [Forest.node x k n c])
        (⟨[Forest.node x k n c], L⟩ : IterSt α) (by simp) (le_refl _)
      show iterAllAux (stackCount [Forest.node x k n c])
        (⟨[Forest.node x k n c], L⟩ : IterSt α) = items (Forest.node x k n c)
      rw [hspec]
      simp [stackItems]
  have h1 : iterAll (iterOf h.root h.len) = items h.root := main h.root h.len
  have h2 : iterAll (intoIterOf h.root h.len) = items h.root := main h.root h.len
  exact ⟨h1, by rw [h1, hl], h2, by rw [h2, hl]⟩

/-- Witness for C7 on a singleton heap. -/
theorem claim_C7_witness :
    ((⟨.node 7 0 .nil .nil, 1⟩ : Heap Nat).len =
        (items (⟨.node 7 0 .nil .nil, 1⟩ : Heap Nat).root).length) ∧
      (iterAll (iterOf (⟨.node 7 0 .nil .nil, 1⟩ : Heap Nat).root
            (⟨.node 7 0 .nil .nil, 1⟩ : Heap Nat).len) =
          items (⟨.node 7 0 .nil .nil, 1⟩ : Heap Nat).root ∧
        (iterAll (iterOf (⟨.node 7 0 .nil .nil, 1⟩ : Heap Nat).root
            (⟨.node 7 0 .nil .nil, 1⟩ : Heap Nat).len)).length =
          (⟨.node 7 0 .nil .nil, 1⟩ : Heap Nat).len ∧
        iterAll (intoIterOf (⟨.node 7 0 .nil .nil, 1⟩ : Heap Nat).root
            (⟨.node 7 0 .nil .nil, 1⟩ : Heap Nat).len) =
          items (⟨.node 7 0 .nil .nil, 1⟩ : Heap Nat).root ∧
        (iterAll (intoIterOf (⟨.node 7 0 .nil .nil, 1⟩ : Heap Nat).root
            (⟨.node 7 0 .nil .nil, 1⟩ : Heap Nat).len)).length =
          (⟨.node 7 0 .nil .nil, 1⟩ : Heap Nat).len) :=
  ⟨rfl, claim_C7 _ rfl⟩

end BinHeap
